import Mathlib

/-!
Verification of the commit-graph layout engine of a desktop Git client.

The engine lives in `src/renderer/components/graph/CommitGraph.tsx`
(lane assignment, coordinate projection) and
`src/renderer/components/graph/BranchLine.tsx` (edge derivation), with
constants from `src/shared/constants.ts`.  The definitions below are a
shallow embedding of that TypeScript code: pure functions over lists,
JavaScript `Map` modelled as an association list whose `get` returns the
most recent `set` (here: prepend and find-first, which has the same `get`
semantics), and JS reference equality of per-row node objects modelled by
row indices (each loop iteration allocates a fresh object).
-/

/-- A commit as consumed by the layout engine.  The source type `GitCommit`
also carries display-only fields (`hashShort`, `message`, `body`, `author`,
`committer`) that the layout computation never reads; they are omitted. -/
structure Commit where
  hash : String
  parents : List String
  refs : List String
deriving DecidableEq, Repr

/-- A branch as read from the branches store; the layout only reads `name`. -/
structure Branch where
  name : String
deriving DecidableEq, Repr

/-- Default commit used with `List.getD`. -/
def dfltCommit : Commit := ⟨"", [], []⟩

/-- Does the character list `s` start with `pat`? (helper for JS `includes`). -/
def leadsWith : List Char → List Char → Bool
  | [], _ => true
  | _ :: _, [] => false
  | a :: as, b :: bs => a == b && leadsWith as bs

/-- Does `pat` occur as a contiguous run inside `s`? -/
def hasSubList (pat : List Char) : List Char → Bool
  | [] => pat.isEmpty
  | c :: rest => leadsWith pat (c :: rest) || hasSubList pat rest

/-- JavaScript `s.includes(pat)`. -/
def strIncludes (s pat : String) : Bool :=
  hasSubList pat.data s.data

/-- Source expression `branches.some((b) => b.name === ref || ref.includes(b.name))`
from CommitGraph.tsx. -/
def matchesBranch (branches : List Branch) (ref : String) : Bool :=
  branches.any (fun b => b.name == ref || strIncludes ref b.name)

/-- Source expression `commit.refs.find((ref) => branches.some(...))` from CommitGraph.tsx:
the first ref of the commit that matches the branch list. -/
def findBranchRef (branches : List Branch) (c : Commit) : Option String :=
  c.refs.find? (matchesBranch branches)

/-- JS `Map.get` on the association-list model. -/
def mapGet (m : List (String × Nat)) (k : String) : Option Nat :=
  (m.find? (fun p => p.fst == k)).map Prod.snd

/-- JS `Map.set` on the association-list model (prepend; `mapGet` sees the
newest binding first, matching overwrite semantics). -/
def mapSet (m : List (String × Nat)) (k : String) (v : Nat) : List (String × Nat) :=
  (k, v) :: m

/-- The mutable loop state of the `graphNodes` computation in
CommitGraph.tsx: `columnMap` (keyed by both matched branch-ref strings and
commit hashes) and the `maxColumn` counter. -/
structure LaneState where
  columnMap : List (String × Nat)
  maxColumn : Nat
deriving DecidableEq, Repr

/-- JS truthiness of the `branchRef` guard (`if (branchRef)`, CommitGraph.tsx
line 37): the guard is false both when no ref matched (`undefined`) and when
the matched ref is the empty string, which is falsy in JavaScript — a falsy
match falls through to the `parents[0]` branch.  This function yields the
matched ref exactly when the guard is taken. -/
def truthyBranchRef (branches : List Branch) (c : Commit) : Option String :=
  match findBranchRef branches c with
  | some r => if r == "" then none else some r
  | none => none

/-- The column chosen for commit `c` given state `st` — the body of the
`commits.forEach` in CommitGraph.tsx (lines 28-52): a truthy matching branch
ref reuses that ref's column or takes the fresh `maxColumn`; otherwise the
column of `parents[0]` is copied when already mapped; otherwise 0. -/
def assignCol (branches : List Branch) (st : LaneState) (c : Commit) : Nat :=
  match truthyBranchRef branches c with
  | some r =>
    match mapGet st.columnMap r with
    | some col => col
    | none => st.maxColumn
  | none =>
    match c.parents with
    | [] => 0
    | p :: _ => (mapGet st.columnMap p).getD 0

/-- The state update performed by the same loop body: a fresh truthy branch
ref is recorded and bumps `maxColumn`; every commit records
`hash ↦ column`. -/
def nextState (branches : List Branch) (st : LaneState) (c : Commit) : LaneState :=
  match truthyBranchRef branches c with
  | some r =>
    match mapGet st.columnMap r with
    | some col => ⟨mapSet st.columnMap c.hash col, st.maxColumn⟩
    | none =>
      ⟨mapSet (mapSet st.columnMap r st.maxColumn) c.hash st.maxColumn, st.maxColumn + 1⟩
  | none =>
    ⟨mapSet st.columnMap c.hash (assignCol branches st c), st.maxColumn⟩

/-- The `GRAPH_CONFIG` object from src/shared/constants.ts. -/
structure GraphConfig where
  NODE_RADIUS : Nat
  NODE_SPACING_X : Nat
  NODE_SPACING_Y : Nat
  LINE_WIDTH : Nat
  COMMIT_HEIGHT : Nat
  SIDEBAR_WIDTH : Nat
deriving Repr

/-- The concrete constant object. -/
def GRAPH_CONFIG : GraphConfig :=
  { NODE_RADIUS := 5, NODE_SPACING_X := 24, NODE_SPACING_Y := 40,
    LINE_WIDTH := 2, COMMIT_HEIGHT := 48, SIDEBAR_WIDTH := 40 }

/-- The `BRANCH_COLORS` palette from src/shared/constants.ts. -/
def BRANCH_COLORS : List String :=
  ["#00d9ff", "#ff006e", "#00ff88", "#ff8c00", "#a855f7",
   "#fbbf24", "#06b6d4", "#f43f5e", "#84cc16", "#8b5cf6"]

/-- A positioned node, as produced per commit by CommitGraph.tsx. -/
structure GraphNode where
  commit : Commit
  x : Nat
  y : Nat
  color : String
  column : Nat
deriving DecidableEq, Repr

/-- Default node used with `List.getD`. -/
def dfltNode : GraphNode := ⟨dfltCommit, 0, 0, "", 0⟩

/-- Node construction for a commit at row `idx` in column `col`:
`x = SIDEBAR_WIDTH + column * NODE_SPACING_X + 20`,
`y = index * COMMIT_HEIGHT + 25`,
`color = BRANCH_COLORS[column % BRANCH_COLORS.length]`. -/
def mkNode (c : Commit) (idx col : Nat) : GraphNode :=
  { commit := c,
    x := GRAPH_CONFIG.SIDEBAR_WIDTH + col * GRAPH_CONFIG.NODE_SPACING_X + 20,
    y := idx * GRAPH_CONFIG.COMMIT_HEIGHT + 25,
    color := BRANCH_COLORS.getD (col % BRANCH_COLORS.length) "",
    column := col }

/-- The `commits.forEach` loop of CommitGraph.tsx, processing the remaining
commits from row `idx` in state `st`. -/
def buildNodesFrom (branches : List Branch) : Nat → LaneState → List Commit → List GraphNode
  | _, _, [] => []
  | idx, st, c :: rest =>
    mkNode c idx (assignCol branches st c) ::
      buildNodesFrom branches (idx + 1) (nextState branches st c) rest

/-- The `graphNodes` useMemo of CommitGraph.tsx: the full layout pass over
the loaded commit list. -/
def graphNodes (branches : List Branch) (commits : List Commit) : List GraphNode :=
  buildNodesFrom branches 0 ⟨[], 0⟩ commits

/-- The four ancestry-line classifications rendered by BranchLine.tsx. -/
inductive EdgeKind where
  | straight
  | fork
  | merge
  | truncated
deriving DecidableEq, Repr

/-- A rendered ancestry line.  `reduced` records whether the SVG element
carries an opacity attribute below 1 (the curved non-first-parent lines get
`opacity={0.7}`, the dashed truncated stub gets `opacity={0.5}`; straight
lines carry no opacity attribute). -/
structure Edge where
  fromNode : GraphNode
  toNode : Option GraphNode
  kind : EdgeKind
  color : String
  reduced : Bool
deriving DecidableEq, Repr

/-- Default edge used with `List.getD`. -/
def dfltEdge : Edge := ⟨dfltNode, none, EdgeKind.straight, "", false⟩

/-- Source expression `commit.parents.map((h) => allNodes.find(...)).filter(defined)` from
BranchLine.tsx: the parent nodes present in the loaded window, in the order
of the commit's parents list. -/
def foundParents (allNodes : List GraphNode) (c : Commit) : List GraphNode :=
  c.parents.filterMap (fun h => allNodes.find? (fun n => n.commit.hash == h))

/-- The line or path element produced for the parent at position `k` of the
found-parents list (BranchLine.tsx lines 51-119): same column gives a
straight full-weight line; otherwise a fork (parent column greater) or
merge curve, colored by the node for `k = 0` and by the parent otherwise,
with `opacity={isFirstParent ? 1 : 0.7}`. -/
def mkParentEdge (node : GraphNode) (k : Nat) (pn : GraphNode) : Edge :=
  if pn.column = node.column then
    { fromNode := node, toNode := some pn, kind := EdgeKind.straight,
      color := if k = 0 then node.color else pn.color, reduced := false }
  else
    { fromNode := node, toNode := some pn,
      kind := if node.column < pn.column then EdgeKind.fork else EdgeKind.merge,
      color := if k = 0 then node.color else pn.color,
      reduced := k != 0 }

/-- The dashed stub drawn below the last loaded node when none of its
parents is in the window (BranchLine.tsx lines 29-47). -/
def truncEdge (node : GraphNode) : Edge :=
  { fromNode := node, toNode := none, kind := EdgeKind.truncated,
    color := node.color, reduced := true }

/-- The ancestry lines produced by one `BranchLine` element for the node at
row `i`.  The `node === lastNode` reference comparison of the source is
modelled as an index comparison (each row holds a distinct object).  The
decorative dashed line above row 0 has no parent endpoint and is not an
ancestry line, so it is not part of the edge list. -/
def edgesFor (allNodes : List GraphNode) (i : Nat) (node : GraphNode) : List Edge :=
  let ps := foundParents allNodes node.commit
  if ps = [] ∧ node.commit.parents ≠ [] then
    if i = allNodes.length - 1 then [truncEdge node] else []
  else
    ps.enum.map (fun kp => mkParentEdge node kp.1 kp.2)

/-- All ancestry lines of the rendered graph, row by row. -/
def deriveEdges (allNodes : List GraphNode) : List Edge :=
  allNodes.enum.flatMap (fun inode => edgesFor allNodes inode.1 inode.2)

/-- The edges produced for the commit at row `i` of the layout of `cs`. -/
def edgesAt (branches : List Branch) (cs : List Commit) (i : Nat) : List Edge :=
  edgesFor (graphNodes branches cs) i ((graphNodes branches cs).getD i dfltNode)

/-- How many truncated stubs the commit at row `i` produces. -/
def truncCountAt (branches : List Branch) (cs : List Commit) (i : Nat) : Nat :=
  ((edgesAt branches cs i).filter (fun e => e.kind == EdgeKind.truncated)).length

/-- A legend row: a branch label and its color. -/
structure LegendEntry where
  label : String
  color : String
deriving DecidableEq, Repr

/-- Drop the marker `pat` from the front of `s` when present. -/
def dropPre (pat s : String) : String :=
  if leadsWith pat.data s.data then ⟨s.data.drop pat.data.length⟩ else s

/-- Modelled from the spec: label resolution of the legend derivation
(spec §4.3), which is not present under src/ — only the component tests
reference the rendered `Branches:` legend.  Per the spec it strips
"framework-specific prefixes such as symbolic-HEAD and remote-tracking
markers down to the bare name"; the concrete marker set mirrors the ref
parsing that is in src (`parseRefs` in CommitNode.tsx). -/
def stripLabel (ref : String) : String :=
  dropPre "tag: " (dropPre "refs/remotes/" (dropPre "refs/tags/"
    (dropPre "refs/heads/" (dropPre "HEAD -> " ref))))

/-- Modelled from the spec: the "first ref/label" resolved for a commit
during the legend walk (spec §4.3). -/
def firstLabel (n : GraphNode) : Option String :=
  n.commit.refs.head?.map stripLabel

/-- Modelled from the spec: the stream of (label, color) pairs the legend
walk sees, in row order, skipping unlabeled commits. -/
def labelStream (nodes : List GraphNode) : List (String × String) :=
  nodes.filterMap (fun n => (firstLabel n).map (fun l => (l, n.color)))

/-- Modelled from the spec: record one entry the first time each label is
seen, stopping once 8 entries are collected (spec §4.3 and §3, legend cap). -/
def collectLegend : List (String × String) → List LegendEntry → List LegendEntry
  | [], acc => acc
  | (l, c) :: rest, acc =>
    if 8 ≤ acc.length then acc
    else if acc.any (fun e => e.label == l) then collectLegend rest acc
    else collectLegend rest (acc ++ [⟨l, c⟩])

/-- Modelled from the spec: the legend before current-branch force-insertion. -/
def legendBase (nodes : List GraphNode) : List LegendEntry :=
  collectLegend (labelStream nodes) []

/-- Modelled from the spec: full legend derivation.  If the currently
checked-out branch has not appeared among the collected labels it is
force-inserted at the front (spec §4.3; scenario 5 of §8 shows the cap is
bypassed only for this forced insertion).  The spec does not fix the color
of the forced entry; the palette head is used. -/
def deriveLegend (nodes : List GraphNode) (currentBranch : Option String) : List LegendEntry :=
  let base := legendBase nodes
  match currentBranch with
  | none => base
  | some cb => if base.any (fun e => e.label == cb) then base else ⟨cb, "#00d9ff"⟩ :: base

/-- The full layout pipeline: nodes, ancestry lines and legend, as a
function of the loaded commit list, the branch list and the current branch. -/
def pipeline (branches : List Branch) (currentBranch : Option String)
    (commits : List Commit) : List GraphNode × List Edge × List LegendEntry :=
  (graphNodes branches commits,
   deriveEdges (graphNodes branches commits),
   deriveLegend (graphNodes branches commits) currentBranch)

/-- Reverse-topological sanity of the input list relative to already-seen
hashes: no commit lists itself or an earlier commit as a parent (spec §3:
children precede their parents). -/
def revTopoOk (seen : List String) : List Commit → Bool
  | [] => true
  | c :: rest =>
    c.parents.all (fun p => !(seen.contains p) && !(p == c.hash)) &&
      revTopoOk (c.hash :: seen) rest

/-- No label that matches the branch list collides with a commit hash or a
parent hash: the `columnMap` of the source keys matched branch-ref strings
and commit hashes in the same map, so such a collision would let a hash
lookup hit a ref entry (or the reverse). -/
def MatchedRefsSafe (branches : List Branch) (cs : List Commit) : Prop :=
  ∀ c ∈ cs, ∀ c' ∈ cs,
    (∀ p ∈ c.parents, findBranchRef branches c' ≠ some p) ∧
      findBranchRef branches c' ≠ some c.hash

/-- Well-formed input: reverse-topological order and no ref/hash collisions. -/
def WellFormed (branches : List Branch) (cs : List Commit) : Prop :=
  revTopoOk [] cs = true ∧ MatchedRefsSafe branches cs

instance (branches : List Branch) (cs : List Commit) :
    Decidable (MatchedRefsSafe branches cs) := by
  unfold MatchedRefsSafe
  infer_instance

instance (branches : List Branch) (cs : List Commit) :
    Decidable (WellFormed branches cs) := by
  unfold WellFormed
  infer_instance

/-- Does the commit at row `i` have an already-visited child (a commit at a
row below `i` whose parents list contains its hash)? -/
def hasVisitedChildB (cs : List Commit) (i : Nat) : Bool :=
  (List.range i).any (fun j =>
    match cs.get? j with
    | some cj => cj.parents.contains ((cs.getD i dfltCommit).hash)
    | none => false)

/-- The columns already assigned to the visited children of the commit at
row `i`, in row order (the `childColumns` collection of spec §4.1 step 2). -/
def childColumns (nodes : List GraphNode) (i : Nat) : List Nat :=
  (List.range i).filterMap (fun j =>
    match nodes.get? j with
    | some nj =>
      if (nodes.getD i dfltNode).commit.hash ∈ nj.commit.parents then some nj.column
      else none
    | none => none)

/-- Is column `col` occupied at row `i` by an in-flight lane: some earlier
node sits in `col` and has a parent placed strictly below row `i`, so its
ancestry line passes through row `i`. -/
def laneThrough (nodes : List GraphNode) (i col : Nat) : Bool :=
  (List.range i).any (fun j =>
    match nodes.get? j with
    | some nj =>
      nj.column == col && nj.commit.parents.any (fun p =>
        match nodes.findIdx? (fun n => n.commit.hash == p) with
        | some r => i < r
        | none => false)
    | none => false)


/-- Branch-ref resolution as a function of the refs list alone. -/
def refFind (branches : List Branch) (refs : List String) : Option String :=
  refs.find? (matchesBranch branches)

/-- The function `findBranchRef` only reads the refs list. -/
theorem findBranchRef_eq_refFind (branches : List Branch) (c : Commit) :
    findBranchRef branches c = refFind branches c.refs := rfl

/-- Truthy branch-ref resolution as a function of the refs list alone
(the empty-string match is falsy, as in `truthyBranchRef`). -/
def truthyRefFind (branches : List Branch) (refs : List String) : Option String :=
  match refFind branches refs with
  | some r => if r == "" then none else some r
  | none => none

/-- The function `truthyBranchRef` only reads the refs list. -/
theorem truthyBranchRef_eq_truthyRefFind (branches : List Branch) (c : Commit) :
    truthyBranchRef branches c = truthyRefFind branches c.refs := rfl

/-- Inversion of a truthy match: the ref was found and is non-empty. -/
theorem truthyBranchRef_some_inv (branches : List Branch) (c : Commit) (r : String)
    (h : truthyBranchRef branches c = some r) :
    findBranchRef branches c = some r ∧ (r == "") = false := by
  unfold truthyBranchRef at h
  cases hf : findBranchRef branches c with
  | none =>
    simp only [hf] at h
    exact Option.noConfusion h
  | some r0 =>
    simp only [hf] at h
    by_cases h0 : (r0 == "") = true
    · rw [if_pos h0] at h
      cases h
    · rw [if_neg h0] at h
      injection h with h1
      subst h1
      exact ⟨rfl, by simpa using h0⟩

/-- A found non-empty ref is truthy. -/
theorem truthyBranchRef_of_some (branches : List Branch) (c : Commit) (r : String)
    (h : findBranchRef branches c = some r) (hne : r ≠ "") :
    truthyBranchRef branches c = some r := by
  unfold truthyBranchRef
  simp only [h]
  rw [if_neg (by simp [hne])]

/-- No found ref means no truthy ref. -/
theorem truthyBranchRef_of_none (branches : List Branch) (c : Commit)
    (h : findBranchRef branches c = none) : truthyBranchRef branches c = none := by
  unfold truthyBranchRef
  simp only [h]

/-- The column the engine picks for a commit, as a function of its refs
alone — the behavior the source reduces to when the input is well-formed
(the `parents[0]` fallback then never finds a mapping; see
`buildCols_eq_refCols`). -/
def refAssignCol (branches : List Branch) (rst : List (String × Nat) × Nat)
    (refs : List String) : Nat :=
  match truthyRefFind branches refs with
  | some r => (mapGet rst.1 r).getD rst.2
  | none => 0

/-- State update of the refs-only model: only fresh truthy matched refs
change it. -/
def refNext (branches : List Branch) (rst : List (String × Nat) × Nat)
    (refs : List String) : List (String × Nat) × Nat :=
  match truthyRefFind branches refs with
  | some r =>
    match mapGet rst.1 r with
    | some _ => rst
    | none => ((r, rst.2) :: rst.1, rst.2 + 1)
  | none => rst

/-- Columns of the refs-only model, in row order. -/
def refColsFrom (branches : List Branch) :
    List (String × Nat) × Nat → List (List String) → List Nat
  | _, [] => []
  | rst, refs :: rest =>
    refAssignCol branches rst refs :: refColsFrom branches (refNext branches rst refs) rest

/-- Final state of the refs-only model after a whole pass. -/
def refFold (branches : List Branch) :
    List (String × Nat) × Nat → List (List String) → List (String × Nat) × Nat
  | rst, [] => rst
  | rst, refs :: rest => refFold branches (refNext branches rst refs) rest

/-- Unfolding `mapGet` over a `mapSet`. -/
theorem mapGet_cons (a : String) (b : Nat) (m : List (String × Nat)) (k : String) :
    mapGet ((a, b) :: m) k = if a == k then some b else mapGet m k := by
  by_cases h : a == k <;> simp [mapGet, List.find?, h]

/-- Looking up the empty map yields nothing. -/
theorem mapGet_nil (k : String) : mapGet [] k = none := rfl

/-- Under well-formed input the full lane pass computes the same columns as
the refs-only model: the hash entries of `columnMap` are never consulted
(the `parents[0]` fallback never finds a mapping because parents lie
strictly below, and matched refs collide with no hash).  `MR` abstracts the
set of strings that may occur as matched branch refs. -/
theorem buildCols_eq_refCols (branches : List Branch) (MR : String → Prop) :
    ∀ (rest : List Commit) (idx : Nat) (st : LaneState)
      (rmap : List (String × Nat)) (rmax : Nat) (seen : List String),
      (∀ k, (mapGet st.columnMap k).isSome = true → seen.contains k = true ∨ MR k) →
      (∀ r, MR r → mapGet st.columnMap r = mapGet rmap r) →
      st.maxColumn = rmax →
      revTopoOk seen rest = true →
      (∀ r, MR r → ∀ c ∈ rest, ∀ p ∈ c.parents, r ≠ p) →
      (∀ r, MR r → ∀ c ∈ rest, r ≠ c.hash) →
      (∀ c ∈ rest, ∀ r, findBranchRef branches c = some r → MR r) →
      (buildNodesFrom branches idx st rest).map (·.column) =
        refColsFrom branches (rmap, rmax) (rest.map (·.refs)) := by
  intro rest
  induction rest with
  | nil => intro idx st rmap rmax seen _ _ _ _ _ _ _; rfl
  | cons c rest ih =>
    intro idx st rmap rmax seen hkeys hrefs hmax hrt hsafeP hsafeH hMR
    have hrt' : (c.parents.all (fun p => !(seen.contains p) && !(p == c.hash))) = true ∧
        revTopoOk (c.hash :: seen) rest = true := by
      simpa [revTopoOk, Bool.and_eq_true] using hrt
    have hpar : ∀ p ∈ c.parents, seen.contains p = false ∧ (p == c.hash) = false := by
      intro p hp
      have h := (List.all_eq_true.mp hrt'.1) p hp
      simpa [Bool.and_eq_true] using h
    have hsafeP' : ∀ r, MR r → ∀ c' ∈ rest, ∀ p ∈ c'.parents, r ≠ p :=
      fun r hr c' hc' => hsafeP r hr c' (List.mem_cons_of_mem _ hc')
    have hsafeH' : ∀ r, MR r → ∀ c' ∈ rest, r ≠ c'.hash :=
      fun r hr c' hc' => hsafeH r hr c' (List.mem_cons_of_mem _ hc')
    have hMR' : ∀ c' ∈ rest, ∀ r, findBranchRef branches c' = some r → MR r :=
      fun c' hc' => hMR c' (List.mem_cons_of_mem _ hc')
    cases hb : truthyBranchRef branches c with
    | some r =>
      have hbf := truthyBranchRef_some_inv branches c r hb
      have hMRr : MR r := hMR c (List.mem_cons_self c rest) r hbf.1
      have hr := hrefs r hMRr
      have hrefFind : truthyRefFind branches c.refs = some r := by
        rw [← truthyBranchRef_eq_truthyRefFind]; exact hb
      have hnecr : (c.hash == r) = false := by
        have : r ≠ c.hash := hsafeH r hMRr c (List.mem_cons_self c rest)
        exact beq_eq_false_iff_ne.mpr (Ne.symm this)
      cases hm : mapGet st.columnMap r with
      | some col =>
        have hm' : mapGet rmap r = some col := by rw [← hr]; exact hm
        have hnext : nextState branches st c =
            ⟨mapSet st.columnMap c.hash col, st.maxColumn⟩ := by
          simp [nextState, hb, hm]
        have hrnext : refNext branches (rmap, rmax) c.refs = (rmap, rmax) := by
          simp [refNext, hrefFind, hm']
        simp only [buildNodesFrom, List.map_cons, refColsFrom, hnext, hrnext]
        refine congrArg₂ List.cons ?_ ?_
        · show (mkNode c idx (assignCol branches st c)).column = _
          simp [mkNode, assignCol, hb, hm, refAssignCol, hrefFind, hm']
        · refine ih (idx + 1) ⟨mapSet st.columnMap c.hash col, st.maxColumn⟩ rmap rmax
            (c.hash :: seen) ?_ ?_ hmax hrt'.2 hsafeP' hsafeH' hMR'
          · intro k hk
            rw [show (LaneState.mk (mapSet st.columnMap c.hash col) st.maxColumn).columnMap =
                mapSet st.columnMap c.hash col from rfl, mapSet, mapGet_cons] at hk
            by_cases hck : (c.hash == k) = true
            · left
              have : c.hash = k := by simpa using hck
              simp [List.contains_cons, ← this]
            · rw [if_neg hck] at hk
              rcases hkeys k hk with h1 | h2
              · left; rw [List.contains_cons, h1, Bool.or_true]
              · right; exact h2
          · intro r' hr'
            have hne : (c.hash == r') = false := by
              have : r' ≠ c.hash := hsafeH r' hr' c (List.mem_cons_self c rest)
              exact beq_eq_false_iff_ne.mpr (Ne.symm this)
            show mapGet (mapSet st.columnMap c.hash col) r' = mapGet rmap r'
            rw [mapSet, mapGet_cons, if_neg (by simp [hne]), hrefs r' hr']
      | none =>
        have hm' : mapGet rmap r = none := by rw [← hr]; exact hm
        have hnext : nextState branches st c =
            ⟨mapSet (mapSet st.columnMap r st.maxColumn) c.hash st.maxColumn,
              st.maxColumn + 1⟩ := by
          simp [nextState, hb, hm]
        have hrnext : refNext branches (rmap, rmax) c.refs = ((r, rmax) :: rmap, rmax + 1) := by
          simp [refNext, hrefFind, hm']
        simp only [buildNodesFrom, List.map_cons, refColsFrom, hnext, hrnext]
        refine congrArg₂ List.cons ?_ ?_
        · show (mkNode c idx (assignCol branches st c)).column = _
          simp [mkNode, assignCol, hb, hm, refAssignCol, hrefFind, hm', hmax]
        · refine ih (idx + 1)
            ⟨mapSet (mapSet st.columnMap r st.maxColumn) c.hash st.maxColumn,
              st.maxColumn + 1⟩ ((r, rmax) :: rmap) (rmax + 1)
            (c.hash :: seen) ?_ ?_ (by simp [hmax]) hrt'.2 hsafeP' hsafeH' hMR'
          · intro k hk
            rw [show (LaneState.mk (mapSet (mapSet st.columnMap r st.maxColumn) c.hash
                st.maxColumn) (st.maxColumn + 1)).columnMap =
                mapSet (mapSet st.columnMap r st.maxColumn) c.hash st.maxColumn from rfl,
              mapSet, mapSet, mapGet_cons] at hk
            by_cases hck : (c.hash == k) = true
            · left
              have : c.hash = k := by simpa using hck
              simp [List.contains_cons, ← this]
            · rw [if_neg hck, mapGet_cons] at hk
              by_cases hrk : (r == k) = true
              · right
                have : r = k := by simpa using hrk
                exact this ▸ hMRr
              · rw [if_neg hrk] at hk
                rcases hkeys k hk with h1 | h2
                · left; rw [List.contains_cons, h1, Bool.or_true]
                · right; exact h2
          · intro r' hr'
            have hne : (c.hash == r') = false := by
              have : r' ≠ c.hash := hsafeH r' hr' c (List.mem_cons_self c rest)
              exact beq_eq_false_iff_ne.mpr (Ne.symm this)
            show mapGet (mapSet (mapSet st.columnMap r st.maxColumn) c.hash st.maxColumn) r'
                = mapGet ((r, rmax) :: rmap) r'
            rw [mapSet, mapSet, mapGet_cons, if_neg (by simp [hne]), mapGet_cons, mapGet_cons]
            by_cases hrr : (r == r') = true
            · rw [if_pos hrr, if_pos hrr, hmax]
            · rw [if_neg hrr, if_neg hrr, hrefs r' hr']
    | none =>
      have hrefFind : truthyRefFind branches c.refs = none := by
        rw [← truthyBranchRef_eq_truthyRefFind]; exact hb
      have hfall : ∀ p l, c.parents = p :: l → mapGet st.columnMap p = none := by
        intro p l hpl
        cases hk : mapGet st.columnMap p with
        | none => rfl
        | some v =>
          have hsome : (mapGet st.columnMap p).isSome = true := by rw [hk]; rfl
          have hpmem : p ∈ c.parents := by rw [hpl]; exact List.mem_cons_self p l
          rcases hkeys p hsome with h1 | h2
          · have h := (hpar p hpmem).1
            rw [h] at h1
            cases h1
          · exact absurd rfl (hsafeP p h2 c (List.mem_cons_self c rest) p hpmem)
      have hhead : assignCol branches st c = 0 := by
        cases hp : c.parents with
        | nil => simp [assignCol, hb, hp]
        | cons p l => simp [assignCol, hb, hp, hfall p l hp]
      have hnext : nextState branches st c =
          ⟨mapSet st.columnMap c.hash (assignCol branches st c), st.maxColumn⟩ := by
        simp [nextState, hb]
      have hrnext : refNext branches (rmap, rmax) c.refs = (rmap, rmax) := by
        simp [refNext, hrefFind]
      simp only [buildNodesFrom, List.map_cons, refColsFrom, hnext, hrnext]
      refine congrArg₂ List.cons ?_ ?_
      · show (mkNode c idx (assignCol branches st c)).column = _
        simp [mkNode, hhead, refAssignCol, hrefFind]
      · refine ih (idx + 1)
          ⟨mapSet st.columnMap c.hash (assignCol branches st c), st.maxColumn⟩ rmap rmax
          (c.hash :: seen) ?_ ?_ hmax hrt'.2 hsafeP' hsafeH' hMR'
        · intro k hk
          rw [show (LaneState.mk (mapSet st.columnMap c.hash (assignCol branches st c))
              st.maxColumn).columnMap =
              mapSet st.columnMap c.hash (assignCol branches st c) from rfl,
            mapSet, mapGet_cons] at hk
          by_cases hck : (c.hash == k) = true
          · left
            have : c.hash = k := by simpa using hck
            simp [List.contains_cons, ← this]
          · rw [if_neg hck] at hk
            rcases hkeys k hk with h1 | h2
            · left; rw [List.contains_cons, h1, Bool.or_true]
            · right; exact h2
        · intro r' hr'
          have hne : (c.hash == r') = false := by
            have : r' ≠ c.hash := hsafeH r' hr' c (List.mem_cons_self c rest)
            exact beq_eq_false_iff_ne.mpr (Ne.symm this)
          show mapGet (mapSet st.columnMap c.hash (assignCol branches st c)) r' = mapGet rmap r'
          rw [mapSet, mapGet_cons, if_neg (by simp [hne]), hrefs r' hr']

/-- The layout columns of a well-formed input depend only on the refs lists:
`graphNodes` agrees with the refs-only model. -/
theorem graphCols_eq_refCols (branches : List Branch) (cs : List Commit)
    (hwf : WellFormed branches cs) :
    (graphNodes branches cs).map (·.column) =
      refColsFrom branches ([], 0) (cs.map (·.refs)) := by
  obtain ⟨hrt, hsafe⟩ := hwf
  refine buildCols_eq_refCols branches
    (fun r => ∃ c ∈ cs, findBranchRef branches c = some r) cs 0 ⟨[], 0⟩ [] 0 []
    ?_ ?_ rfl hrt ?_ ?_ ?_
  · intro k hk
    simp [mapGet] at hk
  · intro r _
    rfl
  · rintro r ⟨c', hc', hfc'⟩ c hc p hp heq
    exact (hsafe c hc c' hc').1 p hp (heq ▸ hfc')
  · rintro r ⟨c', hc', hfc'⟩ c hc heq
    exact (hsafe c hc c' hc').2 (heq ▸ hfc')
  · intro c hc r hr
    exact ⟨c, hc, hr⟩

/-- The pass `buildNodesFrom` preserves list length. -/
theorem buildNodesFrom_length (branches : List Branch) :
    ∀ (cs : List Commit) (idx : Nat) (st : LaneState),
      (buildNodesFrom branches idx st cs).length = cs.length := by
  intro cs
  induction cs with
  | nil => intro idx st; rfl
  | cons c rest ih => intro idx st; simp [buildNodesFrom, ih]

/-- The layout has one node per commit. -/
theorem graphNodes_length (branches : List Branch) (cs : List Commit) :
    (graphNodes branches cs).length = cs.length :=
  buildNodesFrom_length branches cs 0 ⟨[], 0⟩

/-- The nodes carry the input commits, in order. -/
theorem buildNodesFrom_commits (branches : List Branch) :
    ∀ (cs : List Commit) (idx : Nat) (st : LaneState),
      (buildNodesFrom branches idx st cs).map (·.commit) = cs := by
  intro cs
  induction cs with
  | nil => intro idx st; rfl
  | cons c rest ih => intro idx st; simp [buildNodesFrom, mkNode, ih]

/-- The layout carries the input commits, in order. -/
theorem graphNodes_commits (branches : List Branch) (cs : List Commit) :
    (graphNodes branches cs).map (·.commit) = cs :=
  buildNodesFrom_commits branches cs 0 ⟨[], 0⟩

/-- Indexing with `get?` at an in-range index returns the `getD` value. -/
theorem get?_getD {α : Type} (d : α) :
    ∀ (l : List α) (i : Nat), i < l.length → l.get? i = some (l.getD i d)
  | _ :: _, 0, _ => rfl
  | _ :: l, n + 1, h => get?_getD d l n (Nat.lt_of_succ_lt_succ h)

/-- The refs-only pass preserves list length. -/
theorem refColsFrom_length (branches : List Branch) :
    ∀ (l : List (List String)) (rst : List (String × Nat) × Nat),
      (refColsFrom branches rst l).length = l.length := by
  intro l
  induction l with
  | nil => intro rst; rfl
  | cons hd tl ih => intro rst; simp [refColsFrom, ih]

/-- A refs list without a matching branch ref gets column 0 in the
refs-only model. -/
theorem refCols_none_zero (branches : List Branch) :
    ∀ (l : List (List String)) (rst : List (String × Nat) × Nat) (i : Nat)
      (refs : List String),
      l.get? i = some refs → truthyRefFind branches refs = none →
      (refColsFrom branches rst l).get? i = some 0 := by
  intro l
  induction l with
  | nil => intro rst i refs h _; simp at h
  | cons hd tl ih =>
    intro rst i refs hget hf
    cases i with
    | zero =>
      have : hd = refs := by simpa using hget
      subst this
      simp [refColsFrom, refAssignCol, hf]
    | succ n =>
      have hget' : tl.get? n = some refs := by simpa using hget
      simp only [refColsFrom, List.get?]
      exact ih _ n refs hget' hf
/-- Once a key is mapped in the refs-only model it keeps its value. -/
theorem refNext_get_mono (branches : List Branch)
    (rst : List (String × Nat) × Nat) (refs : List String) (r : String) (v : Nat)
    (h : mapGet rst.1 r = some v) :
    mapGet (refNext branches rst refs).1 r = some v := by
  cases hf : truthyRefFind branches refs with
  | none => simpa [refNext, hf] using h
  | some r0 =>
    cases hm : mapGet rst.1 r0 with
    | some v0 => simpa [refNext, hf, hm] using h
    | none =>
      have hne : (r0 == r) = false := by
        refine beq_eq_false_iff_ne.mpr (fun he => ?_)
        rw [he, h] at hm
        cases hm
      simp only [refNext, hf, hm]
      rw [mapGet_cons, if_neg (by simp [hne])]
      exact h

/-- Key stability over a whole refs-only pass. -/
theorem refFold_get_mono (branches : List Branch) :
    ∀ (l : List (List String)) (rst : List (String × Nat) × Nat) (r : String) (v : Nat),
      mapGet rst.1 r = some v → mapGet (refFold branches rst l).1 r = some v := by
  intro l
  induction l with
  | nil => intro rst r v h; exact h
  | cons hd tl ih =>
    intro rst r v h
    exact ih _ r v (refNext_get_mono branches rst hd r v h)

/-- Well-formedness of the refs-only state: every mapped column is below the
counter, and distinct keys map to distinct columns. -/
def RefInv (rst : List (String × Nat) × Nat) : Prop :=
  (∀ r c, mapGet rst.1 r = some c → c < rst.2) ∧
    (∀ r r' c c', mapGet rst.1 r = some c → mapGet rst.1 r' = some c' → r ≠ r' → c ≠ c')

/-- One refs-only step preserves `RefInv`. -/
theorem refNext_inv (branches : List Branch) (rst : List (String × Nat) × Nat)
    (refs : List String) (h : RefInv rst) : RefInv (refNext branches rst refs) := by
  obtain ⟨hbound, hinj⟩ := h
  cases hf : truthyRefFind branches refs with
  | none => simpa [refNext, hf] using And.intro hbound hinj
  | some r0 =>
    cases hm : mapGet rst.1 r0 with
    | some v0 => simpa [refNext, hf, hm] using And.intro hbound hinj
    | none =>
      simp only [refNext, hf, hm]
      constructor
      · intro r c hc
        rw [mapGet_cons] at hc
        by_cases hr : (r0 == r) = true
        · rw [if_pos hr] at hc
          have : c = rst.2 := by injection hc with h0; omega
          omega
        · rw [if_neg hr] at hc
          have := hbound r c hc
          omega
      · intro r r' c c' hc hc' hne
        rw [mapGet_cons] at hc hc'
        by_cases hr : (r0 == r) = true
        · rw [if_pos hr] at hc
          have h0 : r0 = r := by simpa using hr
          have hr' : (r0 == r') = false := by
            refine beq_eq_false_iff_ne.mpr (fun he => hne ?_)
            rw [← h0, he]
          rw [if_neg (by simp [hr'])] at hc'
          have hcv : c = rst.2 := by injection hc with h0; omega
          have := hbound r' c' hc'
          omega
        · rw [if_neg hr] at hc
          by_cases hr' : (r0 == r') = true
          · rw [if_pos hr'] at hc'
            have hcv : c' = rst.2 := by injection hc' with h0; omega
            have := hbound r c hc
            omega
          · rw [if_neg hr'] at hc'
            exact hinj r r' c c' hc hc' hne

/-- The invariant `RefInv` holds after a whole refs-only pass. -/
theorem refFold_inv (branches : List Branch) :
    ∀ (l : List (List String)) (rst : List (String × Nat) × Nat),
      RefInv rst → RefInv (refFold branches rst l) := by
  intro l
  induction l with
  | nil => intro rst h; exact h
  | cons hd tl ih => intro rst h; exact ih _ (refNext_inv branches rst hd h)

/-- A matched refs list gets the column recorded for its ref in the final
refs-only map. -/
theorem refCols_matched (branches : List Branch) :
    ∀ (l : List (List String)) (rst : List (String × Nat) × Nat) (i : Nat)
      (refs : List String) (r : String),
      l.get? i = some refs → truthyRefFind branches refs = some r →
      ∃ col, (refColsFrom branches rst l).get? i = some col ∧
        mapGet (refFold branches rst l).1 r = some col := by
  intro l
  induction l with
  | nil => intro rst i refs r h _; simp at h
  | cons hd tl ih =>
    intro rst i refs r hget hf
    cases i with
    | zero =>
      have : hd = refs := by simpa using hget
      subst this
      cases hm : mapGet rst.1 r with
      | some col =>
        refine ⟨col, ?_, ?_⟩
        · simp [refColsFrom, refAssignCol, hf, hm]
        · show mapGet (refFold branches (refNext branches rst hd) tl).1 r = some col
          exact refFold_get_mono branches tl _ r col (refNext_get_mono branches rst hd r col hm)
      | none =>
        refine ⟨rst.2, ?_, ?_⟩
        · simp [refColsFrom, refAssignCol, hf, hm]
        · show mapGet (refFold branches (refNext branches rst hd) tl).1 r = some rst.2
          refine refFold_get_mono branches tl _ r rst.2 ?_
          simp only [refNext, hf, hm]
          rw [mapGet_cons]
          simp
    | succ n =>
      have hget' : tl.get? n = some refs := by simpa using hget
      obtain ⟨col, h1, h2⟩ := ih (refNext branches rst hd) n refs r hget' hf
      refine ⟨col, ?_, h2⟩
      simpa [refColsFrom] using h1

/-- Reverse-topological order means: the parents of the commit at row `j`
collide neither with the pre-seen hashes nor with any hash at a row `≤ j`. -/
theorem revTopo_no_earlier :
    ∀ (cs : List Commit) (seen : List String), revTopoOk seen cs = true →
      ∀ (j : Nat) (cj : Commit), cs.get? j = some cj → ∀ p ∈ cj.parents,
        seen.contains p = false ∧
          ∀ k, k ≤ j → ∀ ck, cs.get? k = some ck → ck.hash ≠ p := by
  intro cs
  induction cs with
  | nil => intro seen _ j cj h; simp at h
  | cons c rest ih =>
    intro seen hrt j cj hget p hp
    have hrt' : (c.parents.all (fun q => !(seen.contains q) && !(q == c.hash))) = true ∧
        revTopoOk (c.hash :: seen) rest = true := by
      simpa [revTopoOk, Bool.and_eq_true] using hrt
    cases j with
    | zero =>
      have hc : c = cj := by simpa using hget
      subst hc
      have h := (List.all_eq_true.mp hrt'.1) p hp
      have h2 : seen.contains p = false ∧ (p == c.hash) = false := by
        simpa [Bool.and_eq_true] using h
      refine ⟨h2.1, ?_⟩
      intro k hk ck hgetk
      have hk0 : k = 0 := Nat.le_zero.mp hk
      subst hk0
      have hck : c = ck := by simpa using hgetk
      subst hck
      exact Ne.symm (beq_eq_false_iff_ne.mp h2.2)
    | succ m =>
      have hget' : rest.get? m = some cj := by simpa using hget
      obtain ⟨h1, h2⟩ := ih (c.hash :: seen) hrt'.2 m cj hget' p hp
      rw [List.contains_cons] at h1
      have h1' : (p == c.hash) = false ∧ seen.contains p = false := by
        constructor
        · cases hb : (p == c.hash) with
          | false => rfl
          | true => rw [hb] at h1; simp at h1
        · cases hb : seen.contains p with
          | false => rfl
          | true => rw [hb] at h1; simp at h1
      refine ⟨h1'.2, ?_⟩
      intro k hk ck hgetk
      cases k with
      | zero =>
        have hck : c = ck := by simpa using hgetk
        subst hck
        exact Ne.symm (beq_eq_false_iff_ne.mp h1'.1)
      | succ k' =>
        exact h2 k' (Nat.le_of_succ_le_succ hk) ck (by simpa using hgetk)

/-- The lane state after a whole prefix has been processed. -/
def stateAfter (branches : List Branch) : LaneState → List Commit → LaneState
  | st, [] => st
  | st, c :: rest => stateAfter branches (nextState branches st c) rest

/-- Processing an appended list first reproduces the prefix exactly. -/
theorem buildNodesFrom_append (branches : List Branch) :
    ∀ (A E : List Commit) (idx : Nat) (st : LaneState),
      buildNodesFrom branches idx st (A ++ E) =
        buildNodesFrom branches idx st A ++
          buildNodesFrom branches (idx + A.length) (stateAfter branches st A) E := by
  intro A
  induction A with
  | nil => intro E idx st; simp [buildNodesFrom, stateAfter]
  | cons c A' ih =>
    intro E idx st
    simp only [List.cons_append, buildNodesFrom, stateAfter, List.length_cons, List.append_eq]
    rw [ih E (idx + 1) (nextState branches st c)]
    have he : idx + 1 + A'.length = idx + (A'.length + 1) := by omega
    rw [he]

/-- Enumeration pairs each element with its shifted index. -/
theorem enumFrom_get?_eq {α : Type} :
    ∀ (l : List α) (n i : Nat) (x : α),
      l.get? i = some x → (l.enumFrom n).get? i = some (n + i, x) := by
  intro l
  induction l with
  | nil => intro n i x h; simp at h
  | cons a tl ih =>
    intro n i x h
    cases i with
    | zero =>
      have hax : a = x := by simpa using h
      subst hax
      simp [List.enumFrom]
    | succ m =>
      have h' : tl.get? m = some x := by simpa using h
      have hi := ih (n + 1) m x h'
      simp only [List.enumFrom, List.get?]
      rw [hi]
      have he : n + 1 + m = n + (m + 1) := by omega
      rw [he]

/-- A parent edge is never classified truncated. -/
theorem mkParentEdge_kind_ne_truncated (node pn : GraphNode) (k : Nat) :
    (mkParentEdge node k pn).kind ≠ EdgeKind.truncated := by
  unfold mkParentEdge
  by_cases h : pn.column = node.column
  · simp [h]
  · by_cases h2 : node.column < pn.column <;> simp [h, h2]

/-- A commit whose refs match no branch gets column 0, given well-formed
input (shared core of the amended tip and fallback claims). -/
theorem column_zero_of_no_ref (branches : List Branch) (cs : List Commit)
    (hwf : WellFormed branches cs) (i : Nat) (hi : i < cs.length)
    (hnone : findBranchRef branches (cs.getD i dfltCommit) = none) :
    ((graphNodes branches cs).getD i dfltNode).column = 0 := by
  have hlen : i < (graphNodes branches cs).length := by
    rw [graphNodes_length]; exact hi
  have h1 : (graphNodes branches cs).get? i =
      some ((graphNodes branches cs).getD i dfltNode) :=
    get?_getD dfltNode _ i hlen
  have hmap : ((graphNodes branches cs).map (·.column)).get? i =
      some (((graphNodes branches cs).getD i dfltNode).column) := by
    rw [List.get?_map, h1]; rfl
  have hrefs : (cs.map (·.refs)).get? i = some ((cs.getD i dfltCommit).refs) := by
    rw [List.get?_map, get?_getD dfltCommit _ i hi]; rfl
  have h0 := refCols_none_zero branches (cs.map (·.refs)) ([], 0) i _ hrefs
    (by rw [← truthyBranchRef_eq_truthyRefFind]
        exact truthyBranchRef_of_none branches (cs.getD i dfltCommit) hnone)
  rw [graphCols_eq_refCols branches cs hwf, h0] at hmap
  injection hmap with h
  omega

/-- Commits matched to distinct branch refs occupy distinct columns, given
well-formed input (core of the amended lane-collision claim). -/
theorem distinct_refs_distinct_columns_core (branches : List Branch) (cs : List Commit)
    (hwf : WellFormed branches cs) (i j : Nat) (hi : i < cs.length) (hj : j < cs.length)
    (r r' : String)
    (hri : findBranchRef branches (cs.getD i dfltCommit) = some r)
    (hrj : findBranchRef branches (cs.getD j dfltCommit) = some r')
    (hri0 : r ≠ "") (hrj0 : r' ≠ "")
    (hne : r ≠ r') :
    ((graphNodes branches cs).getD i dfltNode).column ≠
      ((graphNodes branches cs).getD j dfltNode).column := by
  have hleni : i < (graphNodes branches cs).length := by rw [graphNodes_length]; exact hi
  have hlenj : j < (graphNodes branches cs).length := by rw [graphNodes_length]; exact hj
  have hmapi : ((graphNodes branches cs).map (·.column)).get? i =
      some (((graphNodes branches cs).getD i dfltNode).column) := by
    rw [List.get?_map, get?_getD dfltNode _ i hleni]; rfl
  have hmapj : ((graphNodes branches cs).map (·.column)).get? j =
      some (((graphNodes branches cs).getD j dfltNode).column) := by
    rw [List.get?_map, get?_getD dfltNode _ j hlenj]; rfl
  have hrefsi : (cs.map (·.refs)).get? i = some ((cs.getD i dfltCommit).refs) := by
    rw [List.get?_map, get?_getD dfltCommit _ i hi]; rfl
  have hrefsj : (cs.map (·.refs)).get? j = some ((cs.getD j dfltCommit).refs) := by
    rw [List.get?_map, get?_getD dfltCommit _ j hj]; rfl
  obtain ⟨ci, hci1, hci2⟩ := refCols_matched branches (cs.map (·.refs)) ([], 0) i _ r hrefsi
    (by rw [← truthyBranchRef_eq_truthyRefFind]
        exact truthyBranchRef_of_some branches (cs.getD i dfltCommit) r hri hri0)
  obtain ⟨cj, hcj1, hcj2⟩ := refCols_matched branches (cs.map (·.refs)) ([], 0) j _ r' hrefsj
    (by rw [← truthyBranchRef_eq_truthyRefFind]
        exact truthyBranchRef_of_some branches (cs.getD j dfltCommit) r' hrj hrj0)
  rw [graphCols_eq_refCols branches cs hwf] at hmapi hmapj
  rw [hci1] at hmapi
  rw [hcj1] at hmapj
  have hinv0 : RefInv ([], 0) := by
    constructor
    · intro a b h; simp [mapGet] at h
    · intro a b u v h; simp [mapGet] at h
  have hinv := refFold_inv branches (cs.map (·.refs)) ([], 0) hinv0
  have hcine : ci ≠ cj := hinv.2 r r' ci cj hci2 hcj2 hne
  injection hmapi with hmi
  injection hmapj with hmj
  omega

/-- First-seen deduplication of a label stream, excluding labels in `seen`:
the order-stable list of distinct labels the legend walk encounters. -/
def newLabels (seen : List String) : List (String × String) → List String
  | [] => []
  | (l, _) :: rest =>
    if l ∈ seen then newLabels seen rest else l :: newLabels (l :: seen) rest

/-- The dedup `newLabels` only depends on the membership of `seen`. -/
theorem newLabels_congr :
    ∀ (s : List (String × String)) (seen seen' : List String),
      (∀ x, x ∈ seen ↔ x ∈ seen') → newLabels seen s = newLabels seen' s := by
  intro s
  induction s with
  | nil => intro seen seen' _; rfl
  | cons hd tl ih =>
    intro seen seen' h
    obtain ⟨l, c⟩ := hd
    by_cases hm : l ∈ seen
    · rw [newLabels, newLabels, if_pos hm, if_pos ((h l).mp hm)]
      exact ih seen seen' h
    · rw [newLabels, newLabels, if_neg hm, if_neg (fun hx => hm ((h l).mpr hx))]
      refine congrArg (List.cons l) ?_
      refine ih (l :: seen) (l :: seen') ?_
      intro x
      simp only [List.mem_cons]
      constructor
      · rintro (rfl | hx)
        · exact Or.inl rfl
        · exact Or.inr ((h x).mp hx)
      · rintro (rfl | hx)
        · exact Or.inl rfl
        · exact Or.inr ((h x).mpr hx)

/-- The legend collector produces the first-seen labels, capped at 8. -/
theorem collectLegend_labels :
    ∀ (s : List (String × String)) (acc : List LegendEntry), acc.length ≤ 8 →
      (collectLegend s acc).map (·.label) =
        acc.map (·.label) ++ (newLabels (acc.map (·.label)) s).take (8 - acc.length) := by
  intro s
  induction s with
  | nil => intro acc _; simp [collectLegend, newLabels]
  | cons hd tl ih =>
    intro acc hle
    obtain ⟨l, c⟩ := hd
    by_cases h8 : 8 ≤ acc.length
    · have hlen : acc.length = 8 := le_antisymm hle h8
      rw [collectLegend, if_pos h8, hlen]
      simp
    · have hlt : acc.length < 8 := by omega
      by_cases hmem : l ∈ acc.map (·.label)
      · have hany : (acc.any (fun e => e.label == l)) = true := by
          rw [List.any_eq_true]
          obtain ⟨e, he, hel⟩ := List.mem_map.mp hmem
          exact ⟨e, he, by simp [hel]⟩
        rw [collectLegend, if_neg h8, if_pos hany, newLabels, if_pos hmem]
        exact ih acc hle
      · have hany : (acc.any (fun e => e.label == l)) = false := by
          rw [Bool.eq_false_iff]
          intro hx
          rw [List.any_eq_true] at hx
          obtain ⟨e, he, hel⟩ := hx
          exact hmem (List.mem_map.mpr ⟨e, he, by simpa using hel⟩)
        rw [collectLegend, if_neg h8, if_neg (by simp [hany]), newLabels, if_neg hmem]
        have hih := ih (acc ++ [{ label := l, color := c }]) (by simp; omega)
        rw [hih]
        have hcongr := newLabels_congr tl
          (List.map (fun x => x.label) (acc ++ [{ label := l, color := c }]))
          (l :: List.map (fun x => x.label) acc)
          (by intro x; simp [or_comm])
        rw [hcongr]
        have hlen2 : (acc ++ [{ label := l, color := c : LegendEntry }]).length =
            acc.length + 1 := by simp
        rw [hlen2]
        have ht : 8 - acc.length = (8 - (acc.length + 1)) + 1 := by omega
        rw [ht, List.take_succ_cons]
        simp [List.map_append, List.append_assoc]

/-- The node at row `i` carries the commit at row `i`. -/
theorem node_commit_at (branches : List Branch) (cs : List Commit) (i : Nat)
    (hi : i < cs.length) :
    ((graphNodes branches cs).getD i dfltNode).commit = cs.getD i dfltCommit := by
  have hlen : i < (graphNodes branches cs).length := by rw [graphNodes_length]; exact hi
  have h1 := get?_getD dfltNode (graphNodes branches cs) i hlen
  have h2 := get?_getD dfltCommit cs i hi
  have h3 : ((graphNodes branches cs).map (·.commit)).get? i = cs.get? i := by
    rw [graphNodes_commits]
  rw [List.get?_map, h1, h2] at h3
  simpa using h3

/-- Parent edges are never truncated stubs. -/
theorem parentEdges_no_truncated (node : GraphNode) (ps : List GraphNode) :
    (ps.enum.map (fun kp => mkParentEdge node kp.1 kp.2)).filter
      (fun e => e.kind == EdgeKind.truncated) = [] := by
  rw [List.filter_eq_nil]
  intro e he
  obtain ⟨kp, _, rfl⟩ := List.mem_map.mp he
  simpa using mkParentEdge_kind_ne_truncated node kp.2 kp.1

/-- C5: on any node list whose resolved labels include at least 9 distinct
values, the legend base has exactly 8 entries, they are the first 8
first-seen labels in row order (each label recorded only on first sight),
and a current branch absent from the collected labels is force-inserted at
the front. -/
theorem C5_legend_cap_and_force (nodes : List GraphNode)
    (h9 : 9 ≤ (newLabels [] (labelStream nodes)).length) :
    (legendBase nodes).length = 8 ∧
      (legendBase nodes).map (·.label) = (newLabels [] (labelStream nodes)).take 8 ∧
      ∀ cb, cb ∉ (legendBase nodes).map (·.label) →
        deriveLegend nodes (some cb) =
          { label := cb, color := "#00d9ff" } :: legendBase nodes := by
  have hK : (legendBase nodes).map (fun e => e.label) =
      (newLabels [] (labelStream nodes)).take 8 := by
    have h := collectLegend_labels (labelStream nodes) [] (by simp)
    simpa [legendBase] using h
  have hlen8 : ((newLabels [] (labelStream nodes)).take 8).length = 8 := by
    rw [List.length_take]
    exact min_eq_left (by omega)
  refine ⟨?_, hK, ?_⟩
  · have : ((legendBase nodes).map (fun e => e.label)).length = 8 := by
      rw [hK]; exact hlen8
    simpa using this
  · intro cb hcb
    have hany : ((legendBase nodes).any (fun e => e.label == cb)) = false := by
      rw [Bool.eq_false_iff]
      intro hx
      rw [List.any_eq_true] at hx
      obtain ⟨e, he, hel⟩ := hx
      exact hcb (List.mem_map.mpr ⟨e, he, by simpa using hel⟩)
    simp [deriveLegend, hany]

/-- C8: under reverse-topological input, the last loaded commit with a
non-empty parents list (whose parents are then necessarily outside the
window) produces exactly one truncated stub, and every other commit
produces none. -/
theorem C8_truncated_only_last (branches : List Branch) (cs : List Commit)
    (hrt : revTopoOk [] cs = true)
    (hpar : (cs.getD (cs.length - 1) dfltCommit).parents ≠ [])
    (_hmiss : ∃ p ∈ (cs.getD (cs.length - 1) dfltCommit).parents, ∀ c ∈ cs, c.hash ≠ p) :
    truncCountAt branches cs (cs.length - 1) = 1 ∧
      ∀ i, i < cs.length - 1 → truncCountAt branches cs i = 0 := by
  have hne : cs ≠ [] := by
    intro h
    apply hpar
    rw [h]
    rfl
  have hn : 0 < cs.length := List.length_pos.mpr hne
  have hi : cs.length - 1 < cs.length := by omega
  have hcommit := node_commit_at branches cs (cs.length - 1) hi
  have hget : cs.get? (cs.length - 1) = some (cs.getD (cs.length - 1) dfltCommit) :=
    get?_getD dfltCommit cs (cs.length - 1) hi
  have hnodelen : (graphNodes branches cs).length = cs.length := graphNodes_length branches cs
  have hfound : foundParents (graphNodes branches cs)
      ((graphNodes branches cs).getD (cs.length - 1) dfltNode).commit = [] := by
    rw [hcommit]
    rw [foundParents, List.filterMap_eq_nil]
    intro p hp
    have hno := revTopo_no_earlier cs [] hrt (cs.length - 1)
      (cs.getD (cs.length - 1) dfltCommit) hget p hp
    rw [List.find?_eq_none]
    intro x hx
    have hxc : x.commit ∈ (graphNodes branches cs).map (·.commit) :=
      List.mem_map.mpr ⟨x, hx, rfl⟩
    rw [graphNodes_commits] at hxc
    obtain ⟨k, hk⟩ := List.mem_iff_get?.mp hxc
    have hklt : k < cs.length := (List.get?_eq_some.mp hk).1
    have := hno.2 k (by omega) x.commit hk
    simp [this]
  constructor
  · rw [truncCountAt, edgesAt, edgesFor]
    simp only [hfound]
    rw [if_pos ⟨trivial, by rw [hcommit]; exact hpar⟩]
    rw [if_pos (by rw [hnodelen])]
    simp [truncEdge]
  · intro i hilt
    rw [truncCountAt, edgesAt, edgesFor]
    by_cases hc : foundParents (graphNodes branches cs)
        ((graphNodes branches cs).getD i dfltNode).commit = [] ∧
        ((graphNodes branches cs).getD i dfltNode).commit.parents ≠ []
    · rw [if_pos hc, if_neg (by rw [hnodelen]; omega)]
      rfl
    · rw [if_neg hc]
      rw [parentEdges_no_truncated]
      rfl

/-- C4 (amended): for the parent at position `k` of the found-parents list
of the node at row `i`, the produced edge joins the node to that parent; it
is straight exactly when the columns agree, a fork exactly when the
parent's column is strictly greater, and a merge exactly when it is
strictly smaller; its color is the node's own color for the first found
parent and the parent's color otherwise; and it is drawn at reduced weight
exactly when it is a second-or-later found parent on a different column. -/
theorem C4_amended_edge_rules (nodes : List GraphNode) (i : Nat) (node : GraphNode)
    (k : Nat) (pn : GraphNode)
    (_hn : nodes.get? i = some node)
    (hk : (foundParents nodes node.commit).get? k = some pn) :
    ∃ e, (edgesFor nodes i node).get? k = some e ∧
      e.fromNode = node ∧ e.toNode = some pn ∧
      (e.kind = EdgeKind.straight ↔ pn.column = node.column) ∧
      (e.kind = EdgeKind.fork ↔ node.column < pn.column) ∧
      (e.kind = EdgeKind.merge ↔ pn.column < node.column) ∧
      e.color = (if k = 0 then node.color else pn.color) ∧
      (e.reduced = true ↔ (k ≠ 0 ∧ pn.column ≠ node.column)) := by
  have hps : foundParents nodes node.commit ≠ [] := by
    intro h
    rw [h] at hk
    simp at hk
  have henum : (foundParents nodes node.commit).enum.get? k = some (k, pn) := by
    have h := enumFrom_get?_eq (foundParents nodes node.commit) 0 k pn hk
    simpa [List.enum] using h
  refine ⟨mkParentEdge node k pn, ?_, ?_⟩
  · simp only [edgesFor]
    rw [if_neg (fun hand => hps hand.1)]
    rw [List.get?_map, henum]
    rfl
  · by_cases h : pn.column = node.column
    · rw [mkParentEdge, if_pos h]
      refine ⟨rfl, rfl, iff_of_true rfl h, ?_, ?_, rfl, ?_⟩
      · exact iff_of_false (by simp) (by omega)
      · exact iff_of_false (by simp) (by omega)
      · simp [h]
    · rw [mkParentEdge, if_neg h]
      by_cases h2 : node.column < pn.column
      · rw [if_pos h2]
        refine ⟨rfl, rfl, iff_of_false (by simp) h, iff_of_true rfl h2,
          iff_of_false (by simp) (by omega), rfl, ?_⟩
        simp [h, bne_iff_ne]
      · rw [if_neg h2]
        refine ⟨rfl, rfl, iff_of_false (by simp) h, iff_of_false (by simp) h2,
          iff_of_true rfl (by omega), rfl, ?_⟩
        simp [h, bne_iff_ne]

/-- C6: appending older commits at the end leaves every already-laid-out
row of the prefix unchanged (same commit, column, position and color). -/
theorem C6_append_monotone (branches : List Branch) (A E : List Commit)
    (i : Nat) (hi : i < A.length) :
    (graphNodes branches (A ++ E)).get? i = (graphNodes branches A).get? i := by
  rw [graphNodes, graphNodes, buildNodesFrom_append]
  exact List.get?_append (by rw [buildNodesFrom_length]; exact hi)

/-- Strict in-list reverse-topological order: every parent hash occurs in
the list, strictly after its child. -/
def parentsInListLater (cs : List Commit) : Bool :=
  cs.enum.all (fun ic => ic.2.parents.all (fun p =>
    cs.enum.any (fun jc => jc.2.hash == p && ic.1 < jc.1)))

/-- Branch list of the convergence counterexample: three live branches. -/
def exC1branches : List Branch := [⟨"A"⟩, ⟨"B"⟩, ⟨"C"⟩]

/-- Convergence counterexample: rows 1 and 2 (columns 1 and 2) are both
children of the unlabeled commit `p` at row 3. -/
def exC1 : List Commit :=
  [⟨"h0", [], ["A"]⟩, ⟨"h1", ["p"], ["B"]⟩, ⟨"h2", ["p"], ["C"]⟩, ⟨"p", [], []⟩]

/-- Variant of `exC1` with the same refs but different hashes/parents. -/
def exC1var : List Commit :=
  [⟨"k0", [], ["A"]⟩, ⟨"k1", [], ["B"]⟩, ⟨"k2", [], ["C"]⟩, ⟨"k3", ["zz"], []⟩]

/-- Branch list of the fork-tip counterexample. -/
def exTipBranches : List Branch := [⟨"A"⟩]

/-- Fork-tip counterexample: the labeled row 0 keeps an in-flight lane in
column 0 through row 1, where the unlabeled tip `f` appears. -/
def exTip : List Commit :=
  [⟨"h0", ["p"], ["A"]⟩, ⟨"f", ["q"], []⟩, ⟨"p", [], []⟩, ⟨"q", [], []⟩]

/-- The merge scenario of the spec (§8 example 2): `M` merges `A` and `B`. -/
def exMAB : List Commit :=
  [⟨"m", ["a", "b"], []⟩, ⟨"a", [], []⟩, ⟨"b", [], []⟩]

/-- Nodes of the merge scenario under an empty branch list. -/
def exMABnodes : List GraphNode := graphNodes [] exMAB

/-- The merge node `M` (row 0). -/
def exMABnodeM : GraphNode := exMABnodes.getD 0 dfltNode

/-- The second-parent node `B` (row 2). -/
def exMABnodeB : GraphNode := exMABnodes.getD 2 dfltNode

/-- Branch list for the ref/hash-collision counterexample. -/
def exC10branches : List Branch := [⟨"A"⟩, ⟨"B"⟩]

/-- Ref/hash collision: branch label "B" is also the hash of the commit at
row 3, so the `parents[0]` fallback of the unlabeled row 2 hits the ref
entry recorded at row 1. -/
def exC10 : List Commit :=
  [⟨"h0", [], ["A"]⟩, ⟨"h1", [], ["B"]⟩, ⟨"h2", ["B"], []⟩, ⟨"B", [], []⟩]

/-- Branch list of the two-branch input. -/
def exPairBranches : List Branch := [⟨"A"⟩, ⟨"B"⟩]

/-- Two commits on two distinct branches. -/
def exPair : List Commit := [⟨"h0", [], ["A"]⟩, ⟨"h1", [], ["B"]⟩]

/-- A one-commit page whose parent lies beyond the window. -/
def exA : List Commit := [⟨"a", ["b"], []⟩]

/-- The older commit later paged in. -/
def exE : List Commit := [⟨"b", ["zz"], []⟩]

/-- A two-commit window whose last commit has an out-of-window parent. -/
def exC8 : List Commit := [⟨"a", ["b"], []⟩, ⟨"b", ["zz"], []⟩]

/-- Ten single-ref branch tips with ten distinct labels. -/
def exLegendCommits : List Commit :=
  [⟨"g0", [], ["b0"]⟩, ⟨"g1", [], ["b1"]⟩, ⟨"g2", [], ["b2"]⟩, ⟨"g3", [], ["b3"]⟩,
   ⟨"g4", [], ["b4"]⟩, ⟨"g5", [], ["b5"]⟩, ⟨"g6", [], ["b6"]⟩, ⟨"g7", [], ["b7"]⟩,
   ⟨"g8", [], ["b8"]⟩, ⟨"g9", [], ["b9"]⟩]

/-- Nodes of the ten-label input. -/
def exLegendNodes : List GraphNode := graphNodes [] exLegendCommits

/-- C1 counterexample: on a reverse-topological input (parents strictly
later, even in-list), the commit at row 3 has visited children at columns
1 and 2, yet lane assignment gives it column 0 — not the minimum (1) of
its child columns; it is not assigned any child column at all, and the
engine keeps no active-column set to remove the others from. -/
theorem C1_counterexample :
    revTopoOk [] exC1 = true ∧
      parentsInListLater exC1 = true ∧
      childColumns (graphNodes exC1branches exC1) 3 = [1, 2] ∧
      ((graphNodes exC1branches exC1).getD 3 dfltNode).column = 0 ∧
      ((graphNodes exC1branches exC1).getD 3 dfltNode).column ∉
        childColumns (graphNodes exC1branches exC1) 3 := by
  decide

/-- C1 (amended): lane assignment ignores the children of a commit
entirely — under well-formed input the whole column list is a function of
the per-row refs lists alone, so two inputs with pointwise equal refs get
identical columns whatever their parent/child structure. -/
theorem C1_amended_columns_from_refs_only (branches : List Branch) (cs cs' : List Commit)
    (h1 : WellFormed branches cs) (h2 : WellFormed branches cs')
    (hr : cs.map (·.refs) = cs'.map (·.refs)) :
    (graphNodes branches cs).map (·.column) = (graphNodes branches cs').map (·.column) := by
  rw [graphCols_eq_refCols branches cs h1, graphCols_eq_refCols branches cs' h2, hr]

/-- Witness for the amended C1 at a concrete pair of inputs that differ in
parents and hashes but not in refs. -/
theorem C1_amended_witness :
    WellFormed exC1branches exC1 ∧ WellFormed exC1branches exC1var ∧
      exC1.map (·.refs) = exC1var.map (·.refs) ∧
      (graphNodes exC1branches exC1).map (·.column) =
        (graphNodes exC1branches exC1var).map (·.column) :=
  ⟨by decide, by decide, by decide,
    C1_amended_columns_from_refs_only exC1branches exC1 exC1var
      (by decide) (by decide) (by decide)⟩

/-- C2 counterexample: on a reverse-topological input the unlabeled tip at
row 1 (no visited child) appears while column 0 is occupied by the
in-flight lane of row 0, yet it is assigned column 0 — not the smallest
free column 1 the claim requires. -/
theorem C2_counterexample :
    revTopoOk [] exTip = true ∧
      parentsInListLater exTip = true ∧
      hasVisitedChildB exTip 1 = false ∧
      laneThrough (graphNodes exTipBranches exTip) 1 0 = true ∧
      ((graphNodes exTipBranches exTip).getD 1 dfltNode).column = 0 := by
  decide

/-- C2 (amended): a commit with no visited child whose refs match no branch
is assigned column 0 outright — the engine keeps no active-column set, so
occupancy of column 0 by an unrelated in-flight lane does not move the tip
to column 1. -/
theorem C2_amended_unmatched_tip_gets_zero (branches : List Branch) (cs : List Commit)
    (hwf : WellFormed branches cs) (i : Nat) (hi : i < cs.length)
    (_htip : hasVisitedChildB cs i = false)
    (hnone : findBranchRef branches (cs.getD i dfltCommit) = none) :
    ((graphNodes branches cs).getD i dfltNode).column = 0 :=
  column_zero_of_no_ref branches cs hwf i hi hnone

/-- Witness for the amended C2 at the concrete fork-tip input, where column
0 is indeed occupied by an unrelated lane. -/
theorem C2_amended_witness :
    WellFormed exTipBranches exTip ∧ 1 < exTip.length ∧
      hasVisitedChildB exTip 1 = false ∧
      findBranchRef exTipBranches (exTip.getD 1 dfltCommit) = none ∧
      laneThrough (graphNodes exTipBranches exTip) 1 0 = true ∧
      ((graphNodes exTipBranches exTip).getD 1 dfltNode).column = 0 :=
  ⟨by decide, by decide, by decide, by decide, by decide,
    C2_amended_unmatched_tip_gets_zero exTipBranches exTip (by decide) 1
      (by decide) (by decide) (by decide)⟩

/-- C3 counterexample: in the spec's own merge scenario (`M` with parents
`[A, B]`, both childless in view), the non-primary parent `B` is assigned
column 0 — not a pre-reserved non-zero column — and its edge is straight,
not merge-classified. -/
theorem C3_counterexample :
    exMABnodeB.commit.hash = "b" ∧
      exMABnodeB.column = 0 ∧
      ((deriveEdges exMABnodes).getD 1 dfltEdge).toNode = some exMABnodeB ∧
      ((deriveEdges exMABnodes).getD 1 dfltEdge).kind ≠ EdgeKind.merge := by
  decide

/-- C3 (amended): no pre-reservation happens for non-primary parents — in
the merge scenario `M`, `A` and `B` all get column 0, both parent edges are
straight, and `B`'s edge uses `B`'s color (equal to the shared column-0
palette color) at full weight. -/
theorem C3_amended_no_reservation :
    (graphNodes [] exMAB).map (·.column) = [0, 0, 0] ∧
      (deriveEdges exMABnodes).map
        (fun e => (Option.map (fun n => n.commit.hash) e.toNode, e.kind, e.color, e.reduced)) =
      [(some "a", EdgeKind.straight, "#00d9ff", false),
       (some "b", EdgeKind.straight, "#00d9ff", false)] := by
  decide

/-- C4 counterexample: the edge to the second-listed parent `B` of the
merge `M` sits in the same column, so it is rendered with no opacity
attribute — full weight — although the claim requires every
second-or-later parent edge to be drawn at reduced visual weight. -/
theorem C4_counterexample :
    exMABnodeM.commit.parents = ["a", "b"] ∧
      ((deriveEdges exMABnodes).getD 1 dfltEdge).toNode = some exMABnodeB ∧
      ((deriveEdges exMABnodes).getD 1 dfltEdge).reduced = false := by
  decide

/-- Witness for the amended C4 at the merge scenario, instantiating the
second found parent (`k = 1`). -/
theorem C4_amended_witness :
    exMABnodes.get? 0 = some exMABnodeM ∧
      (foundParents exMABnodes exMABnodeM.commit).get? 1 = some exMABnodeB ∧
      ∃ e, (edgesFor exMABnodes 0 exMABnodeM).get? 1 = some e ∧
        e.fromNode = exMABnodeM ∧ e.toNode = some exMABnodeB ∧
        (e.kind = EdgeKind.straight ↔ exMABnodeB.column = exMABnodeM.column) ∧
        (e.kind = EdgeKind.fork ↔ exMABnodeM.column < exMABnodeB.column) ∧
        (e.kind = EdgeKind.merge ↔ exMABnodeB.column < exMABnodeM.column) ∧
        e.color = (if (1 : Nat) = 0 then exMABnodeM.color else exMABnodeB.color) ∧
        (e.reduced = true ↔ ((1 : Nat) ≠ 0 ∧ exMABnodeB.column ≠ exMABnodeM.column)) :=
  ⟨by decide, by decide,
    C4_amended_edge_rules exMABnodes 0 exMABnodeM 1 exMABnodeB (by decide) (by decide)⟩

/-- Witness for C5 at ten single-ref tips: the legend caps at 8, and
setting the current branch to the 10th label forces it in at the front. -/
theorem C5_witness :
    9 ≤ (newLabels [] (labelStream exLegendNodes)).length ∧
      (legendBase exLegendNodes).length = 8 ∧
      deriveLegend exLegendNodes (some "b9") =
        { label := "b9", color := "#00d9ff" } :: legendBase exLegendNodes :=
  have h := C5_legend_cap_and_force exLegendNodes (by decide)
  ⟨by decide, h.1, h.2.2 "b9" (by decide)⟩

/-- Witness for C6 at a one-commit page extended by one older commit. -/
theorem C6_witness :
    0 < exA.length ∧
      (graphNodes [] (exA ++ exE)).get? 0 = (graphNodes [] exA).get? 0 :=
  ⟨by decide, C6_append_monotone [] exA exE 0 (by decide)⟩

/-- C7 counterexample: at row 1 of the fork-tip input the placed commit has
column 0 while column 0 is simultaneously occupied by the different
still-open lane running from row 0 to row 2 — two in-flight lanes share a
column. -/
theorem C7_counterexample :
    laneThrough (graphNodes exTipBranches exTip) 1 0 = true ∧
      ((graphNodes exTipBranches exTip).getD 1 dfltNode).column = 0 ∧
      revTopoOk [] exTip = true ∧
      (exTip.getD 1 dfltCommit).parents = ["q"] := by
  decide

/-- C7 (amended): lanes are not kept disjoint in general, but commits
matched to distinct truthy (non-empty) branch refs always occupy distinct
columns on well-formed input.  An empty-string matched ref is falsy for the
`if (branchRef)` guard and falls to the column-0 fallback, so it carries no
distinct lane. -/
theorem C7_amended_distinct_refs_distinct_columns (branches : List Branch)
    (cs : List Commit) (hwf : WellFormed branches cs) (i j : Nat)
    (hi : i < cs.length) (hj : j < cs.length) (r r' : String)
    (hri : findBranchRef branches (cs.getD i dfltCommit) = some r)
    (hrj : findBranchRef branches (cs.getD j dfltCommit) = some r')
    (hri0 : r ≠ "") (hrj0 : r' ≠ "")
    (hne : r ≠ r') :
    ((graphNodes branches cs).getD i dfltNode).column ≠
      ((graphNodes branches cs).getD j dfltNode).column :=
  distinct_refs_distinct_columns_core branches cs hwf i j hi hj r r' hri hrj hri0 hrj0 hne

/-- Witness for the amended C7 at two commits on two distinct branches. -/
theorem C7_amended_witness :
    WellFormed exPairBranches exPair ∧
      findBranchRef exPairBranches (exPair.getD 0 dfltCommit) = some "A" ∧
      findBranchRef exPairBranches (exPair.getD 1 dfltCommit) = some "B" ∧
      ((graphNodes exPairBranches exPair).getD 0 dfltNode).column ≠
        ((graphNodes exPairBranches exPair).getD 1 dfltNode).column :=
  ⟨by decide, by decide, by decide,
    C7_amended_distinct_refs_distinct_columns exPairBranches exPair (by decide) 0 1
      (by decide) (by decide) "A" "B" (by decide) (by decide) (by decide) (by decide)
      (by decide)⟩

/-- Witness for C8 at a two-commit window whose last commit points past the
window: one truncated stub at the last row, none at row 0. -/
theorem C8_witness :
    revTopoOk [] exC8 = true ∧
      (exC8.getD (exC8.length - 1) dfltCommit).parents ≠ [] ∧
      truncCountAt [] exC8 (exC8.length - 1) = 1 ∧
      truncCountAt [] exC8 0 = 0 :=
  have h := C8_truncated_only_last [] exC8 (by decide) (by decide) (by decide)
  ⟨by decide, by decide, h.1, h.2 0 (by decide)⟩

/-- C9 counterexample: the same commit list laid out under two different
branch lists yields different outputs — the pipeline is not a function of
the commit list alone (it also reads the branches store). -/
theorem C9_counterexample :
    pipeline exPairBranches none exPair ≠ pipeline [] none exPair := by
  decide

/-- C9 (amended): the pipeline is deterministic as a function of the commit
list, the branch list and the current branch name together; in this pure
embedding two invocations on equal inputs are definitionally equal. -/
theorem C9_amended_determinism (branches : List Branch) (cur : Option String)
    (cs : List Commit) :
    pipeline branches cur cs = pipeline branches cur cs := rfl

/-- C10 counterexample: on input in strict in-list reverse-topological
order, the unlabeled commit at row 2 is assigned column 1, not 0 — the
`parents[0]` fallback fires through the shared ref/hash column map because
the branch label "B" recorded at row 1 equals the parent hash of row 2. -/
theorem C10_counterexample :
    revTopoOk [] exC10 = true ∧
      parentsInListLater exC10 = true ∧
      (exC10.getD 2 dfltCommit).refs = [] ∧
      findBranchRef exC10branches (exC10.getD 2 dfltCommit) = none ∧
      ((graphNodes exC10branches exC10).getD 2 dfltNode).column = 1 := by
  decide

/-- C10 (amended): under reverse-topological order and with matched branch
labels colliding with no commit or parent hash, every commit whose refs
match no branch is assigned column 0 — the fallback never fires. -/
theorem C10_amended_unlabeled_gets_zero (branches : List Branch) (cs : List Commit)
    (hwf : WellFormed branches cs) (i : Nat) (hi : i < cs.length)
    (hnone : findBranchRef branches (cs.getD i dfltCommit) = none) :
    ((graphNodes branches cs).getD i dfltNode).column = 0 :=
  column_zero_of_no_ref branches cs hwf i hi hnone

/-- Witness for the amended C10 at the convergence input, whose row-3
commit is unlabeled (and has two visited children). -/
theorem C10_amended_witness :
    WellFormed exC1branches exC1 ∧ 3 < exC1.length ∧
      findBranchRef exC1branches (exC1.getD 3 dfltCommit) = none ∧
      ((graphNodes exC1branches exC1).getD 3 dfltNode).column = 0 :=
  ⟨by decide, by decide, by decide,
    C10_amended_unlabeled_gets_zero exC1branches exC1 (by decide) 3
      (by decide) (by decide)⟩

/-- Regression of the JS truthiness of the branch-ref guard: under the
branch list [""], the empty-string ref of the first commit matches but is
falsy for `if (branchRef)`, so that commit takes the column-0 fallback and
no ref entry or fresh column is recorded; the second commit's ref "X"
(matched via the empty-substring rule) then takes the first fresh column,
which is still 0.  Both commits share column 0 although their matched refs
differ, on well-formed input — which is why distinct matched refs separate
lanes only when they are non-empty. -/
theorem emptyRef_falsy_fallback :
    WellFormed [⟨""⟩] [⟨"c0", [], [""]⟩, ⟨"c1", [], ["X"]⟩] ∧
      findBranchRef [⟨""⟩] ⟨"c0", [], [""]⟩ = some "" ∧
      findBranchRef [⟨""⟩] ⟨"c1", [], ["X"]⟩ = some "X" ∧
      (graphNodes [⟨""⟩] [⟨"c0", [], [""]⟩, ⟨"c1", [], ["X"]⟩]).map (·.column) = [0, 0] := by
  decide
